import Mathlib

/-!
Shallow embedding of `src/yams.rs`: a Yams (Yahtzee-like) round and game
scorer.  Pure Rust functions become Lean functions; the `HashMap` from
`Combination` to checker function is embedded as an association list, and
the theorems about determinism quantify over permutations of that list so
that nothing depends on its iteration order.  Machine integers: scores are
`u32` in Rust but every value stays far below `2^32`, so they are `Nat`;
the one place where width matters, the `u8` sum inside `check_chance`, is
modelled with an explicit `% 256` on every addition.
-/

namespace Yams

/-- Rust `type Dice = [u8; 5]`: die values as naturals; the fixed arity 5
is imposed by hypotheses on the theorems that need it. -/
abbrev Dice := List Nat

/-- Rust `enum CombinationResult { Matched(u32), NotMatched }`. -/
inductive CombinationResult where
  | Matched (score : Nat)
  | NotMatched
deriving DecidableEq, Repr

/-- Rust `enum Combination`. -/
inductive Combination where
  | FourOfAKind
  | FullHouse
  | ThreeOfAKind
  | Straight
  | Yams
  | Chance
deriving DecidableEq, Repr

/-- Rust `const ORDERED_COMBINATIONS: [Combination; 6]`. -/
def ORDERED_COMBINATIONS : List Combination :=
  [Combination.Yams, Combination.Straight, Combination.FourOfAKind,
   Combination.FullHouse, Combination.ThreeOfAKind, Combination.Chance]

/-- Rust `dice.iter().filter(|x| *x == die).count()`. -/
def count_die (dice : Dice) (die : Nat) : Nat :=
  (dice.filter (fun x => x == die)).length

/-- Rust `contains_four_of_a_kind`: the early-return `for` loop over the
dice is `List.any`. -/
def contains_four_of_a_kind (dice : Dice) : Bool :=
  dice.any (fun die => decide (4 ≤ count_die dice die))

/-- Rust `check_four_of_a_kind`. -/
def check_four_of_a_kind (dice : Dice) : CombinationResult :=
  if contains_four_of_a_kind dice then CombinationResult.Matched 35
  else CombinationResult.NotMatched

/-- Rust `contains_full_house` builds a `HashMap` from die value to its
count and asks whether some value of the map is 3 and some value is 2.
A count `c` occurs among the map's values exactly when some element of
`dice` occurs `c` times, so the two `any` calls over the map's values are
embedded as `any` over the dice themselves. -/
def contains_full_house (dice : Dice) : Bool :=
  (dice.any (fun die => count_die dice die == 3)) &&
  (dice.any (fun die => count_die dice die == 2))

/-- Rust `check_full_house`. -/
def check_full_house (dice : Dice) : CombinationResult :=
  if contains_full_house dice then CombinationResult.Matched 30
  else CombinationResult.NotMatched

/-- Rust `contains_three_of_a_kind`. -/
def contains_three_of_a_kind (dice : Dice) : Bool :=
  dice.any (fun die => decide (3 ≤ count_die dice die))

/-- Rust `check_three_of_a_kind`. -/
def check_three_of_a_kind (dice : Dice) : CombinationResult :=
  if contains_three_of_a_kind dice then CombinationResult.Matched 28
  else CombinationResult.NotMatched

/-- Rust `contains_straight`: clone, sort, compare with the two straights. -/
def contains_straight (dice : Dice) : Bool :=
  let sorted_dice := List.insertionSort (· ≤ ·) dice
  sorted_dice == [1, 2, 3, 4, 5] || sorted_dice == [2, 3, 4, 5, 6]

/-- Rust `check_straight`. -/
def check_straight (dice : Dice) : CombinationResult :=
  if contains_straight dice then CombinationResult.Matched 40
  else CombinationResult.NotMatched

/-- Rust `is_yams`: `dice.iter().all(|&die| die == dice[0])`; `dice[0]`
is `headI` (the hands in scope always have 5 elements). -/
def is_yams (dice : Dice) : Bool :=
  dice.all (fun die => die == dice.headI)

/-- Rust `check_yams`. -/
def check_yams (dice : Dice) : CombinationResult :=
  if is_yams dice then CombinationResult.Matched 50
  else CombinationResult.NotMatched

/-- Rust `dice.iter().sum::<u8>()`: a `u8` left fold, each addition taken
modulo `2^8 = 256`. -/
def sum_u8 (dice : Dice) : Nat :=
  dice.foldl (fun acc d => (acc + d) % 256) 0

/-- Rust `check_chance`: always `Matched` with the `u8` sum (cast to `u32`,
which is exact). -/
def check_chance (dice : Dice) : CombinationResult :=
  CombinationResult.Matched (sum_u8 dice)

/-- Rust `calculate_chance_score`. -/
def calculate_chance_score (dice : Dice) : Nat :=
  sum_u8 dice

/-- The `HashMap<Combination, CombinationChecker>` built inside
`calculate_yams_round_score`, embedded as its list of key-value pairs in
the order they appear in the `HashMap::from` call.  Theorems about the
scorer hold for every permutation of this list, so nothing depends on the
hash map's iteration order. -/
def case_map : List (Combination × (Dice → CombinationResult)) :=
  [(Combination.FourOfAKind, check_four_of_a_kind),
   (Combination.FullHouse, check_full_house),
   (Combination.ThreeOfAKind, check_three_of_a_kind),
   (Combination.Straight, check_straight),
   (Combination.Yams, check_yams),
   (Combination.Chance, check_chance)]

/-- Rust `HashMap::get_key_value` on the association-list embedding:
find the unique pair with the given key, if any. -/
def get_key_value (m : List (Combination × (Dice → CombinationResult)))
    (c : Combination) : Option (Combination × (Dice → CombinationResult)) :=
  m.find? (fun p => p.1 == c)

/-- Ordering used by `get_best_case`'s `max_by` closure: `NotMatched` is
below everything (including another `NotMatched`), two `Matched` compare
by score. -/
def cmp_case (a b : CombinationResult × Combination) : Ordering :=
  match a.1 with
  | CombinationResult.NotMatched => Ordering.lt
  | CombinationResult.Matched a_score =>
    match b.1 with
    | CombinationResult.NotMatched => Ordering.gt
    | CombinationResult.Matched b_score => compare a_score b_score

/-- One step of Rust `Iterator::max_by` (`std::cmp::max_by`): keep the
accumulator only when it compares strictly greater, otherwise take the new
element — so on ties the later element wins. -/
def max_step {α : Type} (cmp : α → α → Ordering) (acc y : α) : α :=
  if cmp acc y = Ordering.gt then acc else y

/-- Rust `Iterator::max_by`: a left fold of `max_step` over the elements
("If several elements are equally maximum, the last element is
returned"); `none` on an empty iterator. -/
def max_by {α : Type} (cmp : α → α → Ordering) : List α → Option α
  | [] => none
  | x :: xs => some (xs.foldl (max_step cmp) x)

/-- Rust `get_best_case`. -/
def get_best_case (cases : List (CombinationResult × Combination)) :
    Option (CombinationResult × Combination) :=
  max_by cmp_case cases

/-- Rust `calculate_yams_round_score`, parameterized by the association
list that embeds the checker `HashMap` (so that independence from its
order can be stated): look up each available combination, run its checker,
take the best case, and keep it only when it matched.  The source's two
intermediate vectors (`checks` and `case_results`) are inlined. -/
def calculate_yams_round_score_with
    (m : List (Combination × (Dice → CombinationResult)))
    (dice : Dice) (available_combinations : List Combination) :
    Option (Combination × Nat) :=
  match get_best_case
      ((available_combinations.filterMap (fun c => get_key_value m c)).map
        (fun p => (p.2 dice, p.1))) with
  | some (CombinationResult.Matched score, combination) => some (combination, score)
  | some (CombinationResult.NotMatched, _) => none
  | none => none

/-- Rust `calculate_yams_round_score` with the checker map as written in
the source. -/
def calculate_yams_round_score (dice : Dice)
    (available_combinations : List Combination) : Option (Combination × Nat) :=
  calculate_yams_round_score_with case_map dice available_combinations

/-- One iteration of the `for dice in rounds` loop of
`calculate_yams_total_score`: on a match, `retain` drops the awarded
combination from the available list and the score is added to the sum. -/
def yams_total_step (state : List Combination × Nat) (dice : Dice) :
    List Combination × Nat :=
  match calculate_yams_round_score dice state.1 with
  | some (combination, score) =>
      (state.1.filter (fun c => !(c == combination)), state.2 + score)
  | none => state

/-- Rust `calculate_yams_total_score`. -/
def calculate_yams_total_score (rounds : List Dice) : Nat :=
  (rounds.foldl yams_total_step (ORDERED_COMBINATIONS, 0)).2

/-- The checker attached to each combination in `case_map`, as a function;
used to state properties of the scorer. -/
def checker_of : Combination → Dice → CombinationResult
  | Combination.FourOfAKind => check_four_of_a_kind
  | Combination.FullHouse => check_full_house
  | Combination.ThreeOfAKind => check_three_of_a_kind
  | Combination.Straight => check_straight
  | Combination.Yams => check_yams
  | Combination.Chance => check_chance

/-! Spec-side predicates, written from the specification's words, to be
compared with the checkers embedded from the source. -/

/-- Spec: Yams — all five dice equal. -/
def yams_spec (dice : Dice) : Prop :=
  ∀ x ∈ dice, ∀ y ∈ dice, x = y

/-- Spec: Straight — the sorted hand equals `[1,2,3,4,5]` or `[2,3,4,5,6]`. -/
def straight_spec (dice : Dice) : Prop :=
  List.insertionSort (· ≤ ·) dice = [1, 2, 3, 4, 5] ∨
  List.insertionSort (· ≤ ·) dice = [2, 3, 4, 5, 6]

/-- Spec: FourOfAKind — some value appears at least 4 times. -/
def four_of_a_kind_spec (dice : Dice) : Prop :=
  ∃ v ∈ dice, 4 ≤ count_die dice v

/-- Spec: ThreeOfAKind — some value appears at least 3 times. -/
def three_of_a_kind_spec (dice : Dice) : Prop :=
  ∃ v ∈ dice, 3 ≤ count_die dice v

/-- Spec: FullHouse — the value counts contain exactly one value occurring
exactly 3 times and one distinct value occurring exactly 2 times. -/
def full_house_spec (dice : Dice) : Prop :=
  ∃ v ∈ dice, ∃ w ∈ dice, v ≠ w ∧
    count_die dice v = 3 ∧ count_die dice w = 2 ∧
    (∀ u ∈ dice, count_die dice u = 3 → u = v) ∧
    (∀ u ∈ dice, count_die dice u = 2 → u = w)

/-- `x` is at least as good as `y` for the round scorer: whenever `y`
matched with some score, `x` matched with a score at least as large. -/
def beats (x y : CombinationResult × Combination) : Prop :=
  ∀ s2, y.1 = CombinationResult.Matched s2 →
    ∃ s, x.1 = CombinationResult.Matched s ∧ s2 ≤ s

/-- `x` is strictly better than `y`: whenever `y` matched with some score,
`x` matched with a strictly larger score. -/
def strictly_beats (x y : CombinationResult × Combination) : Prop :=
  ∀ s2, y.1 = CombinationResult.Matched s2 →
    ∃ s, x.1 = CombinationResult.Matched s ∧ s2 < s

end Yams

namespace Yams

/-! Helper lemmas. -/

theorem length_eq_five {l : List Nat} (h : l.length = 5) :
    ∃ a b c d e, l = [a, b, c, d, e] := by
  match l with
  | [a, b, c, d, e] => exact ⟨a, b, c, d, e, rfl⟩
  | [] => simp only [List.length_nil] at h; omega
  | [a] => simp only [List.length_cons, List.length_nil] at h; omega
  | [a, b] => simp only [List.length_cons, List.length_nil] at h; omega
  | [a, b, c] => simp only [List.length_cons, List.length_nil] at h; omega
  | [a, b, c, d] => simp only [List.length_cons, List.length_nil] at h; omega
  | a :: b :: c :: d :: e :: f :: t =>
      simp only [List.length_cons, List.length_nil] at h; omega

theorem count_die_cons (a : Nat) (t : List Nat) (v : Nat) :
    count_die (a :: t) v = count_die t v + if a = v then 1 else 0 := by
  by_cases h : a = v <;> simp [count_die, List.filter_cons, h]

theorem two_counts_le (dice : Dice) (u v : Nat) (huv : u ≠ v) :
    count_die dice u + count_die dice v ≤ dice.length := by
  induction dice with
  | nil => simp [count_die]
  | cons a t ih =>
    rw [count_die_cons, count_die_cons, List.length_cons]
    by_cases hu : a = u <;> by_cases hv : a = v <;>
      simp [hu, hv, huv, huv.symm] <;> omega

theorem three_counts_le (dice : Dice) (u v w : Nat)
    (huv : u ≠ v) (huw : u ≠ w) (hvw : v ≠ w) :
    count_die dice u + count_die dice v + count_die dice w ≤ dice.length := by
  induction dice with
  | nil => simp [count_die]
  | cons a t ih =>
    rw [count_die_cons, count_die_cons, count_die_cons, List.length_cons]
    by_cases hu : a = u <;> by_cases hv : a = v <;> by_cases hw : a = w <;>
      simp [hu, hv, hw, huv, huw, hvw, huv.symm, huw.symm, hvw.symm] <;> omega

theorem check_if_iff {b : Bool} {n : Nat} {P : Prop} (hb : b = true ↔ P) :
    ((if b then CombinationResult.Matched n else CombinationResult.NotMatched) =
        CombinationResult.Matched n ↔ P) ∧
    ((if b then CombinationResult.Matched n else CombinationResult.NotMatched) =
        CombinationResult.NotMatched ↔ ¬ P) := by
  cases b <;> simp_all

theorem beats_refl (x : CombinationResult × Combination) : beats x x :=
  fun s2 h => ⟨s2, h, le_refl s2⟩

theorem beats_trans {a b c : CombinationResult × Combination}
    (hab : beats a b) (hbc : beats b c) : beats a c := by
  intro s2 hc
  obtain ⟨s1, hb1, hle1⟩ := hbc s2 hc
  obtain ⟨s0, ha0, hle0⟩ := hab s1 hb1
  exact ⟨s0, ha0, le_trans hle1 hle0⟩

theorem beats_of_strictly_beats {a b : CombinationResult × Combination}
    (h : strictly_beats a b) : beats a b := by
  intro s2 hb
  obtain ⟨s, ha, hlt⟩ := h s2 hb
  exact ⟨s, ha, le_of_lt hlt⟩

theorem strictly_beats_of_cmp_gt {a y : CombinationResult × Combination}
    (h : cmp_case a y = Ordering.gt) : strictly_beats a y := by
  intro s2 hy
  unfold cmp_case at h
  cases ha : a.1 with
  | NotMatched => rw [ha] at h; simp at h
  | Matched s =>
    rw [ha, hy] at h
    refine ⟨s, rfl, ?_⟩
    exact Nat.compare_eq_gt.mp h

theorem beats_of_cmp_not_gt {a y : CombinationResult × Combination}
    (h : cmp_case a y ≠ Ordering.gt) : beats y a := by
  intro s2 ha
  unfold cmp_case at h
  rw [ha] at h
  cases hy : y.1 with
  | NotMatched => rw [hy] at h; simp at h
  | Matched s =>
    rw [hy] at h
    refine ⟨s, rfl, ?_⟩
    have : ¬ s < s2 := fun hlt => h (Nat.compare_eq_gt.mpr hlt)
    omega

theorem foldl_max_beats (l : List (CombinationResult × Combination)) :
    ∀ acc, beats (l.foldl (max_step cmp_case) acc) acc ∧
      ∀ y ∈ l, beats (l.foldl (max_step cmp_case) acc) y := by
  induction l with
  | nil => intro acc; exact ⟨beats_refl acc, by simp⟩
  | cons y t ih =>
    intro acc
    rw [List.foldl_cons]
    obtain ⟨hstep, hall⟩ := ih (max_step cmp_case acc y)
    by_cases h : cmp_case acc y = Ordering.gt
    · have hacc : max_step cmp_case acc y = acc := by simp [max_step, h]
      rw [hacc] at hstep hall ⊢
      refine ⟨hstep, ?_⟩
      intro z hz
      rcases List.mem_cons.mp hz with rfl | hz2
      · exact beats_trans hstep (beats_of_strictly_beats (strictly_beats_of_cmp_gt h))
      · exact hall z hz2
    · have hy : max_step cmp_case acc y = y := by simp [max_step, h]
      rw [hy] at hstep hall ⊢
      refine ⟨beats_trans hstep (beats_of_cmp_not_gt h), ?_⟩
      intro z hz
      rcases List.mem_cons.mp hz with rfl | hz2
      · exact hstep
      · exact hall z hz2

theorem foldl_max_last (l : List (CombinationResult × Combination)) :
    ∀ acc, (l.foldl (max_step cmp_case) acc = acc ∧
        ∀ y ∈ l, strictly_beats (l.foldl (max_step cmp_case) acc) y) ∨
      (∃ l1 l2, l = l1 ++ (l.foldl (max_step cmp_case) acc) :: l2 ∧
        ∀ y ∈ l2, strictly_beats (l.foldl (max_step cmp_case) acc) y) := by
  induction l with
  | nil => intro acc; left; exact ⟨rfl, by simp⟩
  | cons y t ih =>
    intro acc
    rw [List.foldl_cons]
    by_cases h : cmp_case acc y = Ordering.gt
    · have hacc : max_step cmp_case acc y = acc := by simp [max_step, h]
      rw [hacc]
      rcases ih acc with ⟨heq, hall⟩ | ⟨l1, l2, hsplit, hl2⟩
      · left
        refine ⟨heq, ?_⟩
        intro z hz
        rcases List.mem_cons.mp hz with rfl | hz2
        · rw [heq]; exact strictly_beats_of_cmp_gt h
        · exact hall z hz2
      · right
        exact ⟨y :: l1, l2, by rw [List.cons_append, ← hsplit], hl2⟩
    · have hy : max_step cmp_case acc y = y := by simp [max_step, h]
      rw [hy]
      rcases ih y with ⟨heq, hall⟩ | ⟨l1, l2, hsplit, hl2⟩
      · right
        refine ⟨[], t, ?_, ?_⟩
        · rw [List.nil_append, heq]
        · intro z hz; exact hall z hz
      · right
        exact ⟨y :: l1, l2, by rw [List.cons_append, ← hsplit], hl2⟩

theorem max_by_spec {l : List (CombinationResult × Combination)}
    {r : CombinationResult × Combination} (h : max_by cmp_case l = some r) :
    (∀ y ∈ l, beats r y) ∧
      ∃ l1 l2, l = l1 ++ r :: l2 ∧ ∀ y ∈ l2, strictly_beats r y := by
  cases l with
  | nil => simp [max_by] at h
  | cons x t =>
    have hr : t.foldl (max_step cmp_case) x = r := by
      simpa [max_by] using h
    constructor
    · obtain ⟨hstep, hall⟩ := foldl_max_beats t x
      rw [hr] at hstep hall
      intro y hy
      rcases List.mem_cons.mp hy with rfl | hy2
      · exact hstep
      · exact hall y hy2
    · rcases foldl_max_last t x with ⟨heq, hall⟩ | ⟨l1, l2, hsplit, hl2⟩
      · rw [hr] at heq hall
        exact ⟨[], t, by rw [List.nil_append, heq], hall⟩
      · rw [hr] at hsplit hl2
        exact ⟨x :: l1, l2, by rw [List.cons_append, ← hsplit], hl2⟩

theorem max_by_eq_none {α : Type} (cmp : α → α → Ordering) (l : List α) :
    max_by cmp l = none ↔ l = [] := by
  cases l <;> simp [max_by]

theorem get_key_value_case_map (c : Combination) :
    get_key_value case_map c = some (c, checker_of c) := by
  cases c <;> rfl

theorem case_results_map (dice : Dice) (available : List Combination) :
    (available.filterMap (fun c => get_key_value case_map c)).map
        (fun p => (p.2 dice, p.1)) =
      available.map (fun c => (checker_of c dice, c)) := by
  induction available with
  | nil => rfl
  | cons a t ih =>
    rw [List.filterMap_cons, get_key_value_case_map]
    simp only [List.map_cons, ih]

theorem round_score_eq (dice : Dice) (available : List Combination) :
    calculate_yams_round_score dice available =
      match get_best_case (available.map (fun c => (checker_of c dice, c))) with
      | some (CombinationResult.Matched score, combination) =>
          some (combination, score)
      | some (CombinationResult.NotMatched, _) => none
      | none => none := by
  unfold calculate_yams_round_score calculate_yams_round_score_with
  rw [case_results_map]

theorem map_eq_append_cons {α β : Type} (f : α → β) :
    ∀ (l : List α) (y1 : List β) (r : β) (y2 : List β),
      l.map f = y1 ++ r :: y2 →
      ∃ x1 x x2, l = x1 ++ x :: x2 ∧ f x = r ∧ x1.map f = y1 ∧ x2.map f = y2 := by
  intro l y1
  induction y1 generalizing l with
  | nil =>
    intro r y2 h
    cases l with
    | nil => simp at h
    | cons a t =>
      rw [List.map_cons, List.nil_append] at h
      obtain ⟨h1, h2⟩ := List.cons.inj h
      exact ⟨[], a, t, rfl, h1, rfl, h2⟩
  | cons b y1 ih =>
    intro r y2 h
    cases l with
    | nil => simp at h
    | cons a t =>
      rw [List.map_cons, List.cons_append] at h
      obtain ⟨h1, h2⟩ := List.cons.inj h
      obtain ⟨x1, x, x2, ht, hfx, hm1, hm2⟩ := ih t r y2 h2
      exact ⟨a :: x1, x, x2, by rw [ht, List.cons_append],
        hfx, by rw [List.map_cons, h1, hm1], hm2⟩

theorem mem_case_map_eq (y : Combination × (Dice → CombinationResult))
    (hy : y ∈ case_map) (c : Combination) (hkey : y.1 = c) :
    y = (c, checker_of c) := by
  simp only [case_map, List.mem_cons, List.not_mem_nil, or_false] at hy
  rcases hy with rfl | rfl | rfl | rfl | rfl | rfl <;> (cases hkey; rfl)

theorem get_key_value_perm (m : List (Combination × (Dice → CombinationResult)))
    (hm : m.Perm case_map) (c : Combination) :
    get_key_value m c = get_key_value case_map c := by
  rw [get_key_value_case_map]
  have hmem : (c, checker_of c) ∈ m :=
    hm.mem_iff.mpr (by cases c <;> simp [case_map, checker_of])
  have hsome : (m.find? fun p => p.1 == c).isSome := by
    rw [List.find?_isSome]
    exact ⟨(c, checker_of c), hmem, by simp⟩
  obtain ⟨y, hy⟩ := Option.isSome_iff_exists.mp hsome
  have hym : y ∈ case_map := hm.mem_iff.mp (List.mem_of_find?_eq_some hy)
  have hkey : y.1 = c := by
    have hyp := List.find?_some hy
    simpa using hyp
  unfold get_key_value
  rw [hy, mem_case_map_eq y hym c hkey]

theorem round_score_mem (dice : Dice) (available : List Combination)
    (c : Combination) (s : Nat)
    (h : calculate_yams_round_score dice available = some (c, s)) :
    c ∈ available := by
  rw [round_score_eq] at h
  rcases hb : get_best_case (available.map fun x => (checker_of x dice, x))
    with _ | ⟨res, comb⟩
  · rw [hb] at h; simp at h
  · rw [hb] at h
    cases res with
    | NotMatched => simp at h
    | Matched score =>
      simp only [Option.some.injEq, Prod.mk.injEq] at h
      obtain ⟨h1, h2⟩ := h
      rw [h1, h2] at hb
      unfold get_best_case at hb
      obtain ⟨_, l1, l2, hsplit, _⟩ := max_by_spec hb
      have hmem : (CombinationResult.Matched s, c) ∈
          available.map (fun x => (checker_of x dice, x)) := by
        rw [hsplit]; exact List.mem_append_right _ (List.mem_cons_self _ _)
      obtain ⟨c0, hc0mem, hc0eq⟩ := List.mem_map.mp hmem
      obtain ⟨_, hcc⟩ := Prod.mk.inj hc0eq
      rw [← hcc]; exact hc0mem

theorem contains_full_house_iff (dice : Dice) (h5 : dice.length = 5) :
    contains_full_house dice = true ↔ full_house_spec dice := by
  unfold contains_full_house full_house_spec
  rw [Bool.and_eq_true, List.any_eq_true, List.any_eq_true]
  constructor
  · rintro ⟨⟨v, hv, hv3⟩, ⟨w, hw, hw2⟩⟩
    rw [beq_iff_eq] at hv3 hw2
    have hvw : v ≠ w := by
      intro he
      rw [he, hw2] at hv3
      omega
    refine ⟨v, hv, w, hw, hvw, hv3, hw2, ?_, ?_⟩
    · intro u hu hu3
      by_contra hne
      have h2 := two_counts_le dice u v hne
      rw [h5] at h2
      omega
    · intro u hu hu2
      by_contra hne
      have huv : u ≠ v := by
        intro he
        rw [he, hv3] at hu2
        omega
      have h3 := three_counts_le dice u w v hne huv (Ne.symm hvw)
      rw [h5] at h3
      omega
  · rintro ⟨v, hv, w, hw, _, hv3, hw2, _, _⟩
    exact ⟨⟨v, hv, by rw [beq_iff_eq]; exact hv3⟩,
      ⟨w, hw, by rw [beq_iff_eq]; exact hw2⟩⟩

theorem is_yams_iff (dice : Dice) (h5 : dice.length = 5) :
    is_yams dice = true ↔ yams_spec dice := by
  obtain ⟨a, b, c, d, e, rfl⟩ := length_eq_five h5
  unfold is_yams yams_spec
  simp [List.headI]
  constructor <;> intro h <;> omega

theorem contains_straight_iff (dice : Dice) :
    contains_straight dice = true ↔ straight_spec dice := by
  unfold contains_straight straight_spec
  simp [Bool.or_eq_true, beq_iff_eq]

theorem contains_four_iff (dice : Dice) :
    contains_four_of_a_kind dice = true ↔ four_of_a_kind_spec dice := by
  unfold contains_four_of_a_kind four_of_a_kind_spec
  simp [List.any_eq_true]

theorem contains_three_iff (dice : Dice) :
    contains_three_of_a_kind dice = true ↔ three_of_a_kind_spec dice := by
  unfold contains_three_of_a_kind three_of_a_kind_spec
  simp [List.any_eq_true]

theorem sum_u8_eq_sum (dice : Dice) (h5 : dice.length = 5)
    (hr : ∀ d ∈ dice, d ≤ 6) :
    sum_u8 dice = dice.sum ∧ dice.sum ≤ 30 := by
  obtain ⟨a, b, c, d, e, rfl⟩ := length_eq_five h5
  have ha := hr a (by simp)
  have hb := hr b (by simp)
  have hc := hr c (by simp)
  have hd := hr d (by simp)
  have he := hr e (by simp)
  unfold sum_u8
  simp only [List.foldl_cons, List.foldl_nil, List.sum_cons, List.sum_nil]
  omega

end Yams

namespace Yams

/-! The claims. -/

/-- C1. If `calculate_yams_round_score` returns `some (c, s)` then `c` is
a member of the available list, `c`'s checker applied to the hand returns
`Matched s`, and `s` is at least the score of every other available
combination whose checker matches the hand.  (The embedding evaluates
checkers only through the map over the available list, so absent
combinations are never evaluated or returned.) -/
theorem round_score_sound (dice : Dice) (available : List Combination)
    (c : Combination) (s : Nat)
    (h : calculate_yams_round_score dice available = some (c, s)) :
    c ∈ available ∧ checker_of c dice = CombinationResult.Matched s ∧
      ∀ c2 ∈ available, ∀ s2,
        checker_of c2 dice = CombinationResult.Matched s2 → s2 ≤ s := by
  rw [round_score_eq] at h
  rcases hb : get_best_case (available.map fun x => (checker_of x dice, x))
    with _ | ⟨res, comb⟩
  · rw [hb] at h; simp at h
  · rw [hb] at h
    cases res with
    | NotMatched => simp at h
    | Matched score =>
      simp only [Option.some.injEq, Prod.mk.injEq] at h
      obtain ⟨h1, h2⟩ := h
      rw [h1, h2] at hb
      unfold get_best_case at hb
      obtain ⟨hbeats, l1, l2, hsplit, _⟩ := max_by_spec hb
      have hmem : (CombinationResult.Matched s, c) ∈
          available.map (fun x => (checker_of x dice, x)) := by
        rw [hsplit]; exact List.mem_append_right _ (List.mem_cons_self _ _)
      obtain ⟨c0, hc0mem, hc0eq⟩ := List.mem_map.mp hmem
      obtain ⟨hchk, hcc⟩ := Prod.mk.inj hc0eq
      subst hcc
      refine ⟨hc0mem, hchk, ?_⟩
      intro c2 hc2 s2 hchk2
      have hmem2 : (CombinationResult.Matched s2, c2) ∈
          available.map (fun x => (checker_of x dice, x)) :=
        List.mem_map.mpr ⟨c2, hc2, by rw [hchk2]⟩
      obtain ⟨s3, hs3, hle⟩ := hbeats _ hmem2 s2 rfl
      simp only at hs3
      injection hs3 with h4
      omega

/-- C1 witness: evaluated at the hand `[3,3,3,2,5]` with the full
canonical availability, where the scorer awards ThreeOfAKind with 28. -/
theorem round_score_sound_witness :
    Combination.ThreeOfAKind ∈ ORDERED_COMBINATIONS ∧
    checker_of Combination.ThreeOfAKind [3, 3, 3, 2, 5] =
      CombinationResult.Matched 28 ∧
    ∀ c2 ∈ ORDERED_COMBINATIONS, ∀ s2,
      checker_of c2 [3, 3, 3, 2, 5] = CombinationResult.Matched s2 → s2 ≤ 28 :=
  round_score_sound [3, 3, 3, 2, 5] ORDERED_COMBINATIONS
    Combination.ThreeOfAKind 28 (by decide)

/-- C2. The round scorer returns `none` exactly when no available
combination's checker matches the hand (so a `NotMatched` is never
selected over any `Matched`, and an empty availability yields `none`);
and whenever Chance is available the result is `some`. -/
theorem round_score_none_iff (dice : Dice) (available : List Combination) :
    (calculate_yams_round_score dice available = none ↔
      ∀ c ∈ available, checker_of c dice = CombinationResult.NotMatched) ∧
    (Combination.Chance ∈ available →
      ∃ c s, calculate_yams_round_score dice available = some (c, s)) := by
  have hiff : calculate_yams_round_score dice available = none ↔
      ∀ c ∈ available, checker_of c dice = CombinationResult.NotMatched := by
    rw [round_score_eq]
    rcases hb : get_best_case (available.map fun x => (checker_of x dice, x))
      with _ | ⟨res, comb⟩
    · unfold get_best_case at hb
      rw [max_by_eq_none] at hb
      have hav : available = [] := by
        cases available with
        | nil => rfl
        | cons a t => simp at hb
      subst hav
      simp
    · cases res with
      | Matched score =>
        have hb2 := hb
        unfold get_best_case at hb2
        obtain ⟨hbeats, l1, l2, hsplit, _⟩ := max_by_spec hb2
        have hmem : (CombinationResult.Matched score, comb) ∈
            available.map (fun x => (checker_of x dice, x)) := by
          rw [hsplit]; exact List.mem_append_right _ (List.mem_cons_self _ _)
        obtain ⟨c0, hc0mem, hc0eq⟩ := List.mem_map.mp hmem
        obtain ⟨hchk, _⟩ := Prod.mk.inj hc0eq
        apply iff_of_false
        · simp
        · intro hall
          have hnm := hall c0 hc0mem
          rw [hnm] at hchk
          exact absurd hchk (by simp)
      | NotMatched =>
        have hb2 := hb
        unfold get_best_case at hb2
        obtain ⟨hbeats, _⟩ := max_by_spec hb2
        apply iff_of_true rfl
        intro c hc
        rcases hck : checker_of c dice with s | _
        · have hmem2 : (CombinationResult.Matched s, c) ∈
              available.map (fun x => (checker_of x dice, x)) :=
            List.mem_map.mpr ⟨c, hc, by rw [hck]⟩
          obtain ⟨s3, hs3, _⟩ := hbeats _ hmem2 s rfl
          simp at hs3
        · rfl
  refine ⟨hiff, ?_⟩
  intro hch
  rcases hres : calculate_yams_round_score dice available with _ | ⟨c0, s0⟩
  · have hnm := hiff.mp hres Combination.Chance hch
    simp [checker_of, check_chance] at hnm
  · exact ⟨c0, s0, rfl⟩

/-- C2 witness: the hand `[2,2,3,4,6]` matches nothing when only Yams is
available, so the round yields `none`. -/
theorem round_score_none_iff_witness :
    calculate_yams_round_score [2, 2, 3, 4, 6] [Combination.Yams] = none :=
  (round_score_none_iff [2, 2, 3, 4, 6] [Combination.Yams]).1.mpr (by decide)

/-- C3 counterexample.  On the hand `[6,6,6,6,4]` with availability
`[Yams, Straight, FullHouse, ThreeOfAKind, Chance]` (a sublist of the
canonical order), both ThreeOfAKind and Chance match with the same
maximal score 28 and everything else is unmatched, yet the scorer returns
Chance — the one encountered LAST in canonical order, not first. -/
theorem round_score_tie_counterexample :
    ([Combination.Yams, Combination.Straight, Combination.FullHouse,
      Combination.ThreeOfAKind, Combination.Chance].Sublist
        ORDERED_COMBINATIONS) ∧
    check_three_of_a_kind [6, 6, 6, 6, 4] = CombinationResult.Matched 28 ∧
    check_chance [6, 6, 6, 6, 4] = CombinationResult.Matched 28 ∧
    check_yams [6, 6, 6, 6, 4] = CombinationResult.NotMatched ∧
    check_straight [6, 6, 6, 6, 4] = CombinationResult.NotMatched ∧
    check_full_house [6, 6, 6, 6, 4] = CombinationResult.NotMatched ∧
    calculate_yams_round_score [6, 6, 6, 6, 4]
      [Combination.Yams, Combination.Straight, Combination.FullHouse,
       Combination.ThreeOfAKind, Combination.Chance] =
      some (Combination.Chance, 28) := by decide

/-- C3 amended.  When several available combinations match with the same
maximal score, `calculate_yams_round_score` returns the one encountered
LAST in the available list (hence last in canonical order for a
canonically ordered list): the returned combination occurs at a position
after which every matching combination scores strictly less. -/
theorem round_score_last_of_ties (dice : Dice) (available : List Combination)
    (c : Combination) (s : Nat)
    (h : calculate_yams_round_score dice available = some (c, s)) :
    ∃ l1 l2, available = l1 ++ c :: l2 ∧
      ∀ c2 ∈ l2, ∀ s2,
        checker_of c2 dice = CombinationResult.Matched s2 → s2 < s := by
  rw [round_score_eq] at h
  rcases hb : get_best_case (available.map fun x => (checker_of x dice, x))
    with _ | ⟨res, comb⟩
  · rw [hb] at h; simp at h
  · rw [hb] at h
    cases res with
    | NotMatched => simp at h
    | Matched score =>
      simp only [Option.some.injEq, Prod.mk.injEq] at h
      obtain ⟨h1, h2⟩ := h
      rw [h1, h2] at hb
      unfold get_best_case at hb
      obtain ⟨_, l1, l2, hsplit, hstrict⟩ := max_by_spec hb
      obtain ⟨x1, x, x2, hav, hfx, hm1, hm2⟩ :=
        map_eq_append_cons _ available l1 _ l2 hsplit
      obtain ⟨hchk, hxc⟩ := Prod.mk.inj hfx
      subst hxc
      refine ⟨x1, x2, hav, ?_⟩
      intro c2 hc2 s2 hchk2
      have hmem2 : (checker_of c2 dice, c2) ∈ l2 := by
        rw [← hm2]; exact List.mem_map_of_mem _ hc2
      obtain ⟨s3, hs3, hlt⟩ := hstrict _ hmem2 s2 (by rw [hchk2])
      simp only at hs3
      injection hs3 with h4
      omega

/-- C3 amended witness: on the tie between ThreeOfAKind and Chance at 28,
the returned Chance is the last maximal element of the availability. -/
theorem round_score_last_of_ties_witness :
    ∃ l1 l2,
      [Combination.Yams, Combination.Straight, Combination.FullHouse,
       Combination.ThreeOfAKind, Combination.Chance] =
        l1 ++ Combination.Chance :: l2 ∧
      ∀ c2 ∈ l2, ∀ s2,
        checker_of c2 [6, 6, 6, 6, 4] = CombinationResult.Matched s2 →
          s2 < 28 :=
  round_score_last_of_ties [6, 6, 6, 6, 4]
    [Combination.Yams, Combination.Straight, Combination.FullHouse,
     Combination.ThreeOfAKind, Combination.Chance]
    Combination.Chance 28 (by decide)

/-- C9.  The round scorer is deterministic: its value does not depend on
the iteration order of the checker `HashMap` — for every permutation `m`
of the canonical checker association list, the scorer computes the same
result, and the checkers are applied along the order of the available
list. -/
theorem round_score_deterministic
    (m : List (Combination × (Dice → CombinationResult)))
    (hm : m.Perm case_map) (dice : Dice) (available : List Combination) :
    calculate_yams_round_score_with m dice available =
      calculate_yams_round_score dice available := by
  unfold calculate_yams_round_score calculate_yams_round_score_with
  have hfm : available.filterMap (fun c => get_key_value m c) =
      available.filterMap (fun c => get_key_value case_map c) := by
    induction available with
    | nil => rfl
    | cons a t ih =>
      rw [List.filterMap_cons, List.filterMap_cons,
        get_key_value_perm m hm a, ih]
  rw [hfm]

/-- C9 witness: with the checker association list reversed, the scorer
still returns the same result on a concrete round. -/
theorem round_score_deterministic_witness :
    calculate_yams_round_score_with case_map.reverse [3, 3, 3, 2, 5]
        ORDERED_COMBINATIONS =
      calculate_yams_round_score [3, 3, 3, 2, 5] ORDERED_COMBINATIONS :=
  round_score_deterministic case_map.reverse (List.reverse_perm case_map)
    [3, 3, 3, 2, 5] ORDERED_COMBINATIONS

/-- C4.  The reference game: five rounds from the full canonical
availability total 149, the rounds being awarded ThreeOfAKind 28,
FourOfAKind 35, FullHouse 30, Straight 40 and Chance 16 in that order
(each round evaluated against the availability left by the previous
ones). -/
theorem total_score_game :
    calculate_yams_total_score
        [[3, 3, 3, 2, 5], [4, 4, 4, 4, 1], [2, 2, 3, 3, 3],
         [1, 2, 3, 4, 5], [1, 2, 3, 4, 6]] = 149 ∧
    calculate_yams_round_score [3, 3, 3, 2, 5] ORDERED_COMBINATIONS =
      some (Combination.ThreeOfAKind, 28) ∧
    calculate_yams_round_score [4, 4, 4, 4, 1]
      [Combination.Yams, Combination.Straight, Combination.FourOfAKind,
       Combination.FullHouse, Combination.Chance] =
      some (Combination.FourOfAKind, 35) ∧
    calculate_yams_round_score [2, 2, 3, 3, 3]
      [Combination.Yams, Combination.Straight, Combination.FullHouse,
       Combination.Chance] = some (Combination.FullHouse, 30) ∧
    calculate_yams_round_score [1, 2, 3, 4, 5]
      [Combination.Yams, Combination.Straight, Combination.Chance] =
      some (Combination.Straight, 40) ∧
    calculate_yams_round_score [1, 2, 3, 4, 6]
      [Combination.Yams, Combination.Chance] =
      some (Combination.Chance, 16) ∧
    28 + 35 + 30 + 40 + 16 = 149 := by decide

/-- C5.  One loop iteration of `calculate_yams_total_score`: the
availability never grows (it is always a sublist of the previous one); a
round that yields `none` changes nothing; a round that yields
`some (c, s)` removes exactly `c` (afterwards `c` is gone and every other
combination's membership is untouched) and adds `s` to the running
total. -/
theorem total_step_spec (avail : List Combination) (total : Nat)
    (dice : Dice) :
    (yams_total_step (avail, total) dice).1.Sublist avail ∧
    (calculate_yams_round_score dice avail = none →
      yams_total_step (avail, total) dice = (avail, total)) ∧
    (∀ c s, calculate_yams_round_score dice avail = some (c, s) →
      yams_total_step (avail, total) dice =
        (avail.filter (fun x => !(x == c)), total + s) ∧
      c ∉ avail.filter (fun x => !(x == c)) ∧
      (∀ x, x ≠ c →
        (x ∈ avail.filter (fun x => !(x == c)) ↔ x ∈ avail)) ∧
      (∀ dice2 s2,
        calculate_yams_round_score dice2
          (avail.filter (fun x => !(x == c))) ≠ some (c, s2))) := by
  refine ⟨?_, ?_, ?_⟩
  · unfold yams_total_step
    rcases calculate_yams_round_score dice avail with _ | ⟨c, s⟩
    · exact List.Sublist.refl avail
    · exact List.filter_sublist avail
  · intro h
    unfold yams_total_step
    rw [h]
  · intro c s h
    unfold yams_total_step
    rw [h]
    refine ⟨rfl, ?_, ?_, ?_⟩
    · simp [List.mem_filter]
    · intro x hx
      simp [List.mem_filter, hx]
    · intro dice2 s2 heq
      have hmem := round_score_mem dice2 _ c s2 heq
      simp [List.mem_filter] at hmem

/-- C5 witness: the first reference round awards ThreeOfAKind 28 and
removes it from the canonical availability. -/
theorem total_step_spec_witness :
    yams_total_step (ORDERED_COMBINATIONS, 0) [3, 3, 3, 2, 5] =
      (ORDERED_COMBINATIONS.filter
        (fun x => !(x == Combination.ThreeOfAKind)), 0 + 28) :=
  ((total_step_spec ORDERED_COMBINATIONS 0 [3, 3, 3, 2, 5]).2.2
    Combination.ThreeOfAKind 28 (by decide)).1

/-- C6.  `check_full_house` returns `Matched 30` exactly when the hand's
value counts contain exactly one value occurring exactly 3 times and one
distinct value occurring exactly 2 times, and `NotMatched` otherwise (in
particular a five-of-a-kind hand is not a full house). -/
theorem full_house_correct (dice : Dice) (h5 : dice.length = 5)
    (hr : ∀ d ∈ dice, 1 ≤ d ∧ d ≤ 6) :
    (check_full_house dice = CombinationResult.Matched 30 ↔
      full_house_spec dice) ∧
    (check_full_house dice = CombinationResult.NotMatched ↔
      ¬ full_house_spec dice) :=
  check_if_iff (contains_full_house_iff dice h5)

/-- C6 witness: evaluated at the full-house hand `[2,2,3,3,3]`. -/
theorem full_house_correct_witness :
    (check_full_house [2, 2, 3, 3, 3] = CombinationResult.Matched 30 ↔
      full_house_spec [2, 2, 3, 3, 3]) ∧
    (check_full_house [2, 2, 3, 3, 3] = CombinationResult.NotMatched ↔
      ¬ full_house_spec [2, 2, 3, 3, 3]) :=
  full_house_correct [2, 2, 3, 3, 3] (by decide) (by decide)

/-- C7.  The four fixed-score checkers agree with their specifications:
Yams iff all five dice are equal (50), Straight iff the sorted hand is
`[1,2,3,4,5]` or `[2,3,4,5,6]` (40), FourOfAKind iff some value appears
at least 4 times (35), ThreeOfAKind iff some value appears at least 3
times (28); each returns `NotMatched` otherwise. -/
theorem checkers_correct (dice : Dice) (h5 : dice.length = 5)
    (hr : ∀ d ∈ dice, 1 ≤ d ∧ d ≤ 6) :
    (check_yams dice = CombinationResult.Matched 50 ↔ yams_spec dice) ∧
    (check_straight dice = CombinationResult.Matched 40 ↔
      straight_spec dice) ∧
    (check_four_of_a_kind dice = CombinationResult.Matched 35 ↔
      four_of_a_kind_spec dice) ∧
    (check_three_of_a_kind dice = CombinationResult.Matched 28 ↔
      three_of_a_kind_spec dice) ∧
    (check_yams dice = CombinationResult.NotMatched ↔ ¬ yams_spec dice) ∧
    (check_straight dice = CombinationResult.NotMatched ↔
      ¬ straight_spec dice) ∧
    (check_four_of_a_kind dice = CombinationResult.NotMatched ↔
      ¬ four_of_a_kind_spec dice) ∧
    (check_three_of_a_kind dice = CombinationResult.NotMatched ↔
      ¬ three_of_a_kind_spec dice) := by
  exact ⟨(check_if_iff (is_yams_iff dice h5)).1,
    (check_if_iff (contains_straight_iff dice)).1,
    (check_if_iff (contains_four_iff dice)).1,
    (check_if_iff (contains_three_iff dice)).1,
    (check_if_iff (is_yams_iff dice h5)).2,
    (check_if_iff (contains_straight_iff dice)).2,
    (check_if_iff (contains_four_iff dice)).2,
    (check_if_iff (contains_three_iff dice)).2⟩

/-- C7 witness: evaluated at the straight hand `[1,2,3,4,5]`. -/
theorem checkers_correct_witness :
    check_straight [1, 2, 3, 4, 5] = CombinationResult.Matched 40 ↔
      straight_spec [1, 2, 3, 4, 5] :=
  (checkers_correct [1, 2, 3, 4, 5] (by decide) (by decide)).2.1

/-- C8.  `check_chance` always returns `Matched` with exactly the sum of
the five dice, and Chance is the only combination matching every valid
hand: each other combination has a valid hand on which its checker
returns `NotMatched`. -/
theorem chance_correct (dice : Dice) (h5 : dice.length = 5)
    (hr : ∀ d ∈ dice, 1 ≤ d ∧ d ≤ 6) :
    check_chance dice = CombinationResult.Matched dice.sum ∧
    (∀ d2 : Dice, check_chance d2 ≠ CombinationResult.NotMatched) ∧
    (∀ c, c ≠ Combination.Chance →
      ∃ d2 : Dice, d2.length = 5 ∧ (∀ d ∈ d2, 1 ≤ d ∧ d ≤ 6) ∧
        checker_of c d2 = CombinationResult.NotMatched) := by
  have hsum := sum_u8_eq_sum dice h5 (fun d hd => (hr d hd).2)
  refine ⟨?_, ?_, ?_⟩
  · unfold check_chance
    rw [hsum.1]
  · intro d2
    unfold check_chance
    simp
  · intro c hc
    refine ⟨[1, 1, 2, 3, 4], by decide, by decide, ?_⟩
    cases c with
    | Chance => exact absurd rfl hc
    | FourOfAKind => decide
    | FullHouse => decide
    | ThreeOfAKind => decide
    | Straight => decide
    | Yams => decide

/-- C8 witness: evaluated at `[1,2,3,4,6]`, whose Chance score is its
sum 16. -/
theorem chance_correct_witness :
    check_chance [1, 2, 3, 4, 6] =
      CombinationResult.Matched (List.sum [1, 2, 3, 4, 6]) :=
  (chance_correct [1, 2, 3, 4, 6] (by decide) (by decide)).1

/-- C10.  For a valid hand the mathematical sum (and every partial sum)
is at most 30, so the `u8` summation inside `check_chance` never wraps
modulo 256 and the returned Chance score is the exact sum. -/
theorem chance_sum_no_overflow (dice : Dice) (h5 : dice.length = 5)
    (hr : ∀ d ∈ dice, 1 ≤ d ∧ d ≤ 6) :
    dice.sum ≤ 30 ∧ (∀ n, (dice.take n).sum ≤ 30) ∧
    sum_u8 dice = dice.sum ∧
    check_chance dice = CombinationResult.Matched dice.sum := by
  have hsum := sum_u8_eq_sum dice h5 (fun d hd => (hr d hd).2)
  refine ⟨hsum.2, ?_, hsum.1, ?_⟩
  · intro n
    have hsplit : (dice.take n).sum + (dice.drop n).sum = dice.sum := by
      rw [← List.sum_append, List.take_append_drop]
    have h30 := hsum.2
    omega
  · unfold check_chance
    rw [hsum.1]

/-- C10 witness: the maximal valid hand `[6,6,6,6,6]` sums to 30 without
wrapping. -/
theorem chance_sum_no_overflow_witness :
    sum_u8 [6, 6, 6, 6, 6] = List.sum [6, 6, 6, 6, 6] :=
  (chance_sum_no_overflow [6, 6, 6, 6, 6] (by decide) (by decide)).2.2.1

end Yams
